import Mathlib

/-!
Verification development for the slog-console handler (package `console`).

The embedding follows the three-buffer `Handler.Handle` / `Handler.WithAttrs` /
`Handler.WithGroup` / `Handler.extractHeaders` code together with the matching
encoder (`newEncoder`, `free`, `withColor`, `writeTimestamp`, `writeLevel`,
`writeSource`, `writeMessage`, `writeHeaders`, `writeHeaderSeparator`,
`writeAttr`, `writeColoredValue`).  Buffers are modelled as `List Char`; every
encoder writer returns the bytes it appends to the buffer it was handed (the Go
code appends to a `*buffer` in place, which for value reasoning is the same
thing).  Stateful pieces (the encoder's `groups` slice, the header-slot slices
and their aliasing with the parent handler's slice, the mutation of the caller's
attr slice in `extractHeaders`) are threaded explicitly.  A second, lower-level
model of the growable `buffer` type with explicit backing arrays and capacities
lives at the end of the definition section; it is used for the shared-buffer
aliasing claims about `WithAttrs` and `buffer.Clip`.
-/

namespace SlogConsole

/-- ANSI style token, mirroring the Go `ANSIMod` string type. -/
abbrev ANSIMod := String

/-- Modelled from the spec: the universal reset token appended after each styled
span.  The theme source file is not under src/; the spec says a style is applied
"by wrapping a span with a start token and a universal reset token". -/
def ResetMod : ANSIMod := "\x1b[0m"

/-- Theme maps a field category to an optional style token (empty string means
no style), mirroring the Go `Theme` interface used by the encoder. -/
structure Theme where
  timestamp : ANSIMod
  source : ANSIMod
  message : ANSIMod
  messageDebug : ANSIMod
  attrKey : ANSIMod
  attrValue : ANSIMod
  attrValueError : ANSIMod
  levelError : ANSIMod
  levelWarn : ANSIMod
  levelInfo : ANSIMod
  levelDebug : ANSIMod

/-- Modelled from the spec: a theme in which every category maps to no style
token (the concrete theme table is outside src/; no claim depends on it). -/
def emptyTheme : Theme :=
  ⟨"", "", "", "", "", "", "", "", "", "", ""⟩

/-- The tagged union `slog.Value`, restricted to the kinds the claims exercise:
string, int64, bool, time instants (as `Nat`, `0` being the zero sentinel),
groups, the zero `slog.Value{}` (`vnil`), and the `slog.Level` / `slog.Source`
payloads that `writeLevel` / `writeSource` carry under `KindAny`.  The remaining
scalar kinds (uint64, float64, duration) and caller-extensible `KindAny`
payloads (error / Stringer capabilities) only differ in scalar formatting and
are not referenced by any claim, so they are omitted from the value universe. -/
inductive Value where
  | vstr (s : String)
  | vint (i : Int)
  | vbool (b : Bool)
  | vtime (t : Nat)
  | vgroup (attrs : List (String × Value))
  | vnil
  | vlevel (l : Int)
  | vsource (file : String) (line : Int)

/-- A key/value attribute (`slog.Attr`). -/
abbrev Attr := String × Value

/-- The zero `slog.Attr{}`: empty key and zero value (the elision marker). -/
def zeroAttr : Attr := ("", Value.vnil)

/-- Value equality against the zero `slog.Value{}` (`a.Value.Equal(slog.Value{})`
in the Go code; only the zero value itself compares equal in the kinds used by
the handler). -/
def Value.isZero : Value → Bool
  | .vnil => true
  | _ => false

/-- Kind test `a.Value.Kind() == slog.KindGroup`. -/
def Value.isGroup : Value → Bool
  | .vgroup _ => true
  | _ => false

/-- The Go code calls `Value.Resolve()` before inspecting a value.  The value
universe here contains no `LogValuer` (lazy) payloads — slog's `Resolve` is the
identity on every non-lazy value — so `resolve` is the identity. -/
def Value.resolve (v : Value) : Value := v

/-- Attr equality with the zero attr, `a.Equal(slog.Attr{})`. -/
def attrIsZero (a : Attr) : Bool := a.1 == "" && a.2.isZero

/-- Signed offset formatting `fmt.Sprintf("%+d", d)`. -/
def signedStr (d : Int) : String :=
  if 0 ≤ d then "+" ++ toString d else toString d

/-- `slog.Level.String()`, used when a level value is printed as a generic
attribute value (stand-in on the `KindAny` fallback path; anchors and signed
offsets follow the slog definition). -/
def levelString (l : Int) : String :=
  if 8 ≤ l then (if l = 8 then "ERROR" else "ERROR" ++ signedStr (l - 8))
  else if 4 ≤ l then (if l = 4 then "WARN" else "WARN" ++ signedStr (l - 4))
  else if 0 ≤ l then (if l = 0 then "INFO" else "INFO" ++ signedStr l)
  else (if l = -4 then "DEBUG" else "DEBUG" ++ signedStr (l + 4))

/-- Stand-in for Go's `time.Time.AppendFormat`: renders the abstract instant.
No claim depends on the text of a formatted timestamp. -/
def formatTime (fmt : String) (t : Nat) : String :=
  let _ := fmt
  toString t

/-- `slog.Value.String()` as used by `writeColoredValue`'s default branch:
groups print their attrs in brackets; other kinds print their scalar text.  The
`fuel` argument only serves structural recursion; it is instantiated with
`sizeOf`, which always exceeds the nesting depth. -/
def stringReprFuel : Nat → Value → String
  | 0, _ => ""
  | fuel + 1, v =>
      match v with
      | .vstr s => s
      | .vint i => toString i
      | .vbool b => toString b
      | .vtime t => formatTime "" t
      | .vnil => "<nil>"
      | .vlevel l => levelString l
      | .vsource f l => f ++ ":" ++ toString l
      | .vgroup as =>
          "[" ++ String.intercalate " "
            (as.map (fun kv => kv.1 ++ "=" ++ stringReprFuel fuel kv.2)) ++ "]"

mutual

/-- Structural size of a value (used as recursion fuel; it always exceeds the
group-nesting depth). -/
def Value.size : Value → Nat
  | .vgroup as => attrsSize as + 1
  | _ => 1

/-- Structural size of a group payload. -/
def attrsSize : List (String × Value) → Nat
  | [] => 1
  | kv :: rest => kv.2.size + attrsSize rest + 1

end

/-- `slog.Value.String()`. -/
def Value.stringRepr (v : Value) : String := stringReprFuel v.size v

/-- Handler options (`HandlerOptions`).  `level` is the minimum-level threshold
(not used by the encoder itself), `replaceAttr` the optional rewrite hook. -/
structure HandlerOptions where
  addSource : Bool := false
  level : Int := 0
  noColor : Bool := false
  timeFormat : String := ""
  theme : Theme := emptyTheme
  headers : List String := []
  replaceAttr : Option (List String → Attr → Attr) := none

/-- The `withColor` combinator: wrap `inner` in the style token and the reset
token unless the token is empty or `NoColor` is set. -/
def withColor (opts : HandlerOptions) (c : ANSIMod) (inner : List Char) : List Char :=
  if c == "" || opts.noColor then inner
  else c.data ++ inner ++ ResetMod.data

/-- `writeColoredString`. -/
def writeColoredString (opts : HandlerOptions) (s : String) (c : ANSIMod) : List Char :=
  withColor opts c s.data

/-- `writeColoredTime`. -/
def writeColoredTime (opts : HandlerOptions) (t : Nat) (fmt : String) (c : ANSIMod) : List Char :=
  withColor opts c (formatTime fmt t).data

/-- `writeColoredValue`: dispatch on the value kind; every branch of the Go
switch formats the scalar and wraps it via `withColor` (the error / Stringer
capability probes of `KindAny` concern payloads outside this value universe). -/
def writeColoredValue (opts : HandlerOptions) (v : Value) (style : ANSIMod) : List Char :=
  match v with
  | .vint i => withColor opts style (toString i).data
  | .vbool b => withColor opts style (toString b).data
  | .vtime t => withColor opts style (formatTime opts.timeFormat t).data
  | .vstr s => withColor opts style s.data
  | v => withColor opts style v.stringRepr.data

/-- slog's built-in record keys (`slog.TimeKey` etc.). -/
def timeKey : String := "time"

/-- `slog.LevelKey`. -/
def levelKey : String := "level"

/-- `slog.MessageKey`. -/
def messageKey : String := "msg"

/-- `slog.SourceKey`. -/
def sourceKey : String := "source"

/-- The anchor switch of `writeLevel`: the 3-letter code of the nearest anchor
at or below the level and the signed delta from it (levels below the lowest
anchor keep the `DBG` code with a negative delta, as in the Go `default` arm). -/
def levelAnchor (l : Int) : String × Int :=
  if 8 ≤ l then ("ERR", l - 8)
  else if 4 ≤ l then ("WRN", l - 4)
  else if 0 ≤ l then ("INF", l - 0)
  else ("DBG", l - (-4))

/-- The style chosen by the same switch. -/
def levelStyle (th : Theme) (l : Int) : ANSIMod :=
  if 8 ≤ l then th.levelError
  else if 4 ≤ l then th.levelWarn
  else if 0 ≤ l then th.levelInfo
  else th.levelDebug

/-- The text `writeLevel` renders for a level when it prints the level itself
(`str` plus `fmt.Sprintf("%s%+d", str, delta)` when the delta is nonzero). -/
def levelText (l : Int) : String :=
  let sd := levelAnchor l
  if sd.2 = 0 then sd.1 else sd.1 ++ signedStr sd.2

/-- `encoder.writeLevel`: when a rewrite hook is configured the level attr is
passed through it first; a zero result elides the field, a `slog.Level` result
replaces the level, anything else is printed as a generic value in the level's
style.  The bytes appended to the passed buffer are returned. -/
def writeLevel (opts : HandlerOptions) (l : Int) : List Char :=
  match opts.replaceAttr with
  | none =>
      writeColoredString opts (levelText l) (levelStyle opts.theme l) ++ [' ']
  | some f =>
      let v := (f [] (levelKey, Value.vlevel l)).2.resolve
      if v.isZero then []
      else
        match v with
        | .vlevel ll =>
            writeColoredString opts (levelText ll) (levelStyle opts.theme ll) ++ [' ']
        | v =>
            writeColoredValue opts v (levelStyle opts.theme l) ++ [' ']

/-- `encoder.writeTimestamp`: the bytes appended, paired with whether the
rewrite hook was invoked.  A zero time elides the field before the hook is
consulted. -/
def writeTimestamp (opts : HandlerOptions) (t : Nat) : List Char × Bool :=
  if t = 0 then ([], false)
  else
    match opts.replaceAttr with
    | none =>
        (writeColoredTime opts t opts.timeFormat opts.theme.timestamp ++ [' '], false)
    | some f =>
        let v := (f [] (timeKey, Value.vtime t)).2.resolve
        if v.isZero then ([], true)
        else
          match v with
          | .vtime tt =>
              if tt = 0 then ([], true)
              else (writeColoredTime opts tt opts.timeFormat opts.theme.timestamp ++ [' '], true)
          | v =>
              (writeColoredValue opts v opts.theme.timestamp ++ [' '], true)

/-- Stand-in for `filepath.Rel(cwd, file)`: path relativization is outside the
encoder's data model and no claim depends on the rendered source path. -/
def relPath (cwd file : String) : String :=
  let _ := cwd
  file

/-- `encoder.writeSource`.  The program-location is modelled as the
`(file, line)` frame the PC resolves to (`none` for a zero PC, which leaves the
zero `slog.Source{}`). -/
def writeSource (opts : HandlerOptions) (cwd : String) (src : Option (String × Int)) : List Char :=
  let s0 : String × Int := match src with
    | some fl => fl
    | none => ("", 0)
  let finish : String × Int → List Char := fun s =>
    if s.1 == "" && s.2 == 0 then []
    else
      let f := if cwd == "" then s.1 else relPath cwd s.1
      withColor opts opts.theme.source ((f ++ ":" ++ toString s.2).data ++ [' '])
  match opts.replaceAttr with
  | none => finish s0
  | some hk =>
      let v := (hk [] (sourceKey, Value.vsource s0.1 s0.2)).2.resolve
      if v.isZero then []
      else
        match v with
        | .vsource f2 l2 => finish (f2, l2)
        | v => writeColoredValue opts v opts.theme.timestamp ++ [' ']

/-- `encoder.writeMessage`: debug-levels use the debug message style; the hook
(when configured) may elide or replace the message. -/
def writeMessage (opts : HandlerOptions) (level : Int) (msg : String) : List Char :=
  let style := if level < 0 then opts.theme.messageDebug else opts.theme.message
  match opts.replaceAttr with
  | none => writeColoredString opts msg style
  | some f =>
      let v := (f [] (messageKey, Value.vstr msg)).2.resolve
      if v.isZero then []
      else writeColoredValue opts v style

/-- `encoder.writeAttr`: resolve, apply the rewrite hook to non-group attrs,
elide the zero attr, flatten groups with dot-joined prefixes (pushing the group
key on the encoder's `groups` slice only while a hook is configured), and render
leaves as `' ' ++ styled(key=) ++ styled(value)`.  Returns the appended bytes
and the encoder's `groups` slice after the call.  The `for` loop over a group's
children is the `foldl`; `fuel` only serves structural recursion and is
instantiated with `sizeOf` of the attr's value, which exceeds the real
recursion depth whenever the hook does not fabricate new groups. -/
def writeAttr (opts : HandlerOptions) : Nat → List String → Attr → String →
    List Char × List String
  | 0, gs, _, _ => ([], gs)
  | fuel + 1, gs, a, grp =>
      let a1 : Attr := (a.1, a.2.resolve)
      let a2 : Attr :=
        match opts.replaceAttr with
        | some f =>
            if a1.2.isGroup then a1
            else
              let r := f gs a1
              (r.1, r.2.resolve)
        | none => a1
      if attrIsZero a2 then ([], gs)
      else
        match a2.2 with
        | .vgroup children =>
            let subgroup := if grp == "" then a2.1 else grp ++ "." ++ a2.1
            let gs1 := if opts.replaceAttr.isSome then gs ++ [a2.1] else gs
            let dg := children.foldl
              (fun (acc : List Char × List String) attr =>
                let d := writeAttr opts fuel acc.2 attr subgroup
                (acc.1 ++ d.1, d.2))
              ([], gs1)
            let gs2 := if opts.replaceAttr.isSome then dg.2.dropLast else dg.2
            (dg.1, gs2)
        | v =>
            let keyPart := (if grp == "" then "" else grp ++ ".") ++ a2.1 ++ "="
            let style := opts.theme.attrValue
            (' ' :: (withColor opts opts.theme.attrKey keyPart.data ++
                     writeColoredValue opts v style), gs)

/-- `slices.IndexFunc(h.opts.Headers, func(s string) bool { return s == key })`. -/
def headerIdx (keys : List String) (k : String) : Option Nat :=
  keys.findIdx? (fun s => s == k)

/-- `encoder.writeHeaders`: each non-elided slot's value is rendered in the
source style followed by a space; non-group slot values pass through the hook
first. -/
def writeHeaders (opts : HandlerOptions) (hs : List Attr) : List Char :=
  match hs with
  | [] => []
  | a :: rest =>
      let a2 : Attr :=
        match opts.replaceAttr with
        | some f =>
            if a.2.isGroup then a
            else
              let r := f [] a
              (r.1, r.2.resolve)
        | none => a
      (if a2.2.isZero then []
       else writeColoredValue opts a2.2 opts.theme.source ++ [' ']) ++
      writeHeaders opts rest

/-- `encoder.writeHeaderSeparator`: the divider token. -/
def writeHeaderSeparator (opts : HandlerOptions) : List Char :=
  writeColoredString opts "> " opts.theme.attrKey

/-- The `Handler` struct: options, dot-joined group key chain (`groupPrefix` in
the Go code), open group names, the pre-rendered persistent context bytes, and
the inherited header slots. -/
structure Handler where
  opts : HandlerOptions
  groupPfx : String
  groups : List String
  context : List Char
  headers : List Attr

/-- `NewHandler` (writer omitted; the sink is passed to the flush stage
separately).  An empty time format falls back to `time.DateTime`; the header
slots start as `len(opts.Headers)` zero attrs. -/
def newHandler (opts : HandlerOptions) : Handler :=
  let opts := { opts with
    timeFormat := if opts.timeFormat == "" then "2006-01-02 15:04:05" else opts.timeFormat }
  { opts := opts
    groupPfx := ""
    groups := []
    context := []
    headers := List.replicate opts.headers.length zeroAttr }

/-- A `slog.Record`: time (zero sentinel `0`), level, message, the source frame
the PC resolves to (`none` for a zero PC) and the per-event attrs. -/
structure Record where
  time : Nat
  level : Int
  msg : String
  src : Option (String × Int)
  attrs : List Attr

/-- State threaded through `Handle`'s `rec.Attrs` closure.  `headers` is what
the local `headers` slice currently shows, `parent` the contents of the
handler's own `h.headers` backing array, and `aliased` whether the local slice
still aliases that array (it does until the first header match copies it into
the encoder's scratch slice); a slot write while aliased would also mutate the
parent's array, which is how Go slice assignment behaves. -/
structure LoopState where
  middle : List Char
  trailer : List Char
  groups : List String
  headers : List Attr
  parent : List Attr
  aliased : Bool

/-- A header-slot write `headers[idx] = a` through the possibly-aliased local
slice. -/
def hdrWrite (st : LoopState) (idx : Nat) (a : Attr) : LoopState :=
  if st.aliased then
    { st with headers := st.headers.set idx a, parent := st.parent.set idx a }
  else
    { st with headers := st.headers.set idx a }

/-- The `rec.Attrs` closure of the three-buffer `Handle`: attrs whose key is a
configured header key are routed into a (copy-on-first-write) header slot; any
other attr is rendered onto the middle buffer, and if the newly appended span
contains a line-break byte it is moved verbatim to the trailer buffer and the
middle buffer is rewound to its previous length. -/
def handleLoop (opts : HandlerOptions) (grp : String) (st : LoopState) :
    List Attr → LoopState
  | [] => st
  | a :: rest =>
      match headerIdx opts.headers a.1 with
      | some idx =>
          let st1 := if st.aliased then { st with aliased := false, headers := st.parent } else st
          handleLoop opts grp (hdrWrite st1 idx a) rest
      | none =>
          let dg := writeAttr opts a.2.size st.groups a grp
          let st1 :=
            if dg.1.contains '\n' then
              { st with trailer := st.trailer ++ dg.1, groups := dg.2 }
            else
              { st with middle := st.middle ++ dg.1, groups := dg.2 }
          handleLoop opts grp st1 rest

/-- The spans `writeAttr` produces for the non-header attrs of an event, each
computed with the same encoder `groups` state the loop threads. -/
def spansOf (opts : HandlerOptions) (grp : String) (gs : List String) :
    List Attr → List (List Char)
  | [] => []
  | a :: rest =>
      match headerIdx opts.headers a.1 with
      | some _ => spansOf opts grp gs rest
      | none =>
          let dg := writeAttr opts a.2.size gs a grp
          dg.1 :: spansOf opts grp dg.2 rest

/-- The buffer-construction part of `Handle`, before the three `WriteTo` calls.
`headersUsed` is the header-slot list handed to `writeHeaders`, and
`parentHeaders` the contents of the handler's own `h.headers` array after the
event (`Handle` must not mutate it). -/
structure RenderOut where
  header : List Char
  middlePre : List Char
  trailerPre : List Char
  headersUsed : List Attr
  parentHeaders : List Attr
  middle : List Char
  trailer : List Char
  out : List Char

/-- Assembly of the sections once the buffers are built: the terminator byte is
appended to the middle buffer when the trailer stayed empty and to the trailer
buffer otherwise; `out` concatenates the sections in the order the three
`WriteTo` calls flush them. -/
def assembleOut (header mp tp : List Char) (hu ph : List Attr) : RenderOut :=
  let finalMiddle := if tp.isEmpty then mp ++ ['\n'] else mp
  let finalTrailer := if tp.isEmpty then [] else tp ++ ['\n']
  { header := header
    middlePre := mp
    trailerPre := tp
    headersUsed := hu
    parentHeaders := ph
    middle := finalMiddle
    trailer := finalTrailer
    out := header ++ finalMiddle ++ finalTrailer }

/-- The header-buffer bytes written after the timestamp: level, the optional
source field, the non-elided header slots, and the divider (written exactly when
the header buffer grew past the length recorded after timestamp and level). -/
def renderHeaderRest (h : Handler) (cwd : String) (rec : Record) (hdrs : List Attr) : List Char :=
  let lvlD := writeLevel h.opts rec.level
  let srcD := if h.opts.addSource then writeSource h.opts cwd rec.src else []
  let hdrD := if 0 < hdrs.length then writeHeaders h.opts hdrs else []
  let sepD := if 0 < (srcD ++ hdrD).length then writeHeaderSeparator h.opts else []
  lvlD ++ srcD ++ hdrD ++ sepD

/-- The buffer-construction part of `Handle` for one record: timestamp and
level into the header buffer, message and persistent-context bytes into the
middle buffer, the attr loop, then headers and divider appended to the header
buffer; finally the single terminator byte goes to the middle buffer when the
trailer stayed empty and to the trailer buffer otherwise.  `out` is the
concatenation the three `WriteTo` calls emit. -/
def render (h : Handler) (cwd : String) (rec : Record) : RenderOut :=
  let tsD := (writeTimestamp h.opts rec.time).1
  let msgD := writeMessage h.opts rec.level rec.msg
  let groups0 := if h.opts.replaceAttr.isSome then h.groups else []
  let st0 : LoopState :=
    { middle := msgD ++ h.context
      trailer := []
      groups := groups0
      headers := h.headers
      parent := h.headers
      aliased := true }
  let L := handleLoop h.opts h.groupPfx st0 rec.attrs
  assembleOut (tsD ++ renderHeaderRest h cwd rec L.headers) L.middle L.trailer L.headers L.parent

/-- State of `extractHeaders`: the local `headers` slice contents, the contents
of the parent's `h.headers` backing array, whether the local slice still aliases
it, the Go `changed` flag, and the caller's attr slice as mutated so far. -/
structure ExtractState where
  headers : List Attr
  parent : List Attr
  aliased : Bool
  changed : Bool
  outAttrs : List Attr

/-- `Handler.extractHeaders`: scan the supplied attrs; a key matching a
configured header key copies the slot slice on first use, writes the attr into
the slot, and overwrites that entry of the caller's slice with the zero attr.
A slot write while the local slice still aliases the parent's array would
mutate the parent too (Go slice assignment). -/
def extractHeadersGo (keys : List String) (st : ExtractState) : List Attr → ExtractState
  | [] => st
  | a :: rest =>
      match headerIdx keys a.1 with
      | some idx =>
          let st1 := if !st.changed then { st with headers := st.parent, aliased := false } else st
          let st2 :=
            if st1.aliased then
              { st1 with headers := st1.headers.set idx a, parent := st1.parent.set idx a }
            else
              { st1 with headers := st1.headers.set idx a }
          extractHeadersGo keys
            { st2 with changed := true, outAttrs := st2.outAttrs ++ [zeroAttr] } rest
      | none =>
          extractHeadersGo keys { st with outAttrs := st.outAttrs ++ [a] } rest

/-- The `for _, a := range attrs { enc.writeAttr(&newCtx, a, h.groupPrefix) }`
loop of `WithAttrs`, threading the encoder `groups` slice. -/
def writeAttrList (opts : HandlerOptions) (grp : String) (gs : List String) :
    List Attr → List Char × List String
  | [] => ([], gs)
  | a :: rest =>
      let d1 := writeAttr opts a.2.size gs a grp
      let d2 := writeAttrList opts grp d1.2 rest
      (d1.1 ++ d2.1, d2.2)

/-- Result of `WithAttrs`: the derived handler, the contents of the parent's
`h.headers` array after the call, and the caller's attr slice as mutated by
`extractHeaders`. -/
structure WithAttrsOut where
  handler : Handler
  parentHeaders : List Attr
  attrsAfter : List Attr

/-- `Handler.WithAttrs`: extract header attrs into a fresh slot list, render the
(mutated) attrs onto a copy of the context, clip it, and return the derived
handler.  In this byte-level model `Clip` does not change the observable bytes;
the capacity-level effect of `Clip` is modelled separately by `Buf.clip` below. -/
def withAttrs (h : Handler) (attrs : List Attr) : WithAttrsOut :=
  let ex := extractHeadersGo h.opts.headers
    { headers := h.headers, parent := h.headers, aliased := true, changed := false,
      outAttrs := [] } attrs
  let groups0 := if h.opts.replaceAttr.isSome then h.groups else []
  let ctxD := writeAttrList h.opts h.groupPfx groups0 ex.outAttrs
  { handler := { h with context := h.context ++ ctxD.1, headers := ex.headers }
    parentHeaders := ex.parent
    attrsAfter := ex.outAttrs }

/-- `Handler.WithGroup`: trim the name, extend the dot-joined prefix and the
group chain; options, context and header slots are shared unchanged. -/
def withGroup (h : Handler) (name : String) : Handler :=
  let name := name.trim
  let pfx := if h.groupPfx == "" then name else h.groupPfx ++ "." ++ name
  { h with groupPfx := pfx, groups := h.groups ++ [name] }

/-- Outcome of the flush stage of `Handle`: whether an error was returned and
whether the pooled encoder was released (`enc.free()`). -/
structure FlushOut where
  err : Bool
  freed : Bool

/-- The tail of `Handle`: write the header, middle and trailer buffers to the
sink in order, returning the first write error; `enc.free()` runs only after
all three writes succeed.  `sink i` tells whether the `i`-th `WriteTo` call
succeeds. -/
def handleFlush (r : RenderOut) (sink : Nat → Bool) : FlushOut :=
  let _ := r
  if !sink 0 then { err := true, freed := false }
  else if !sink 1 then { err := true, freed := false }
  else if !sink 2 then { err := true, freed := false }
  else { err := false, freed := true }

/-! ### Capacity-level model of the `buffer` type

Modelled from the spec: the `buffer` type itself (`Append`, `Clip`, `copy`) is
not under src/ — only its call sites are.  The spec describes it as a growable
byte accumulator with Go slice semantics whose `Clip` "clips a derived
PersistentContext's spare capacity to zero … forcing any subsequent append to
allocate fresh storage".  The model below makes the backing storage explicit: a
heap of backing arrays, a buffer being a (array id, length, capacity) triple.
`appendBuf` follows Go's `append`: if the bytes fit in the spare capacity they
are written into the backing array in place (visible to every alias of that
array), otherwise a fresh, larger array is allocated. -/

/-- Bytes of the backing store. -/
abbrev HByte := Nat

/-- A Go slice header over a backing array: array id, length, capacity. -/
structure Buf where
  arr : Nat
  len : Nat
  cap : Nat
deriving DecidableEq

/-- The heap of backing arrays; an array's list length is its allocated size. -/
abbrev Heap := List (List HByte)

/-- The bytes a buffer observes: the first `len` bytes of its backing array. -/
def readBuf (H : Heap) (b : Buf) : List HByte :=
  (H.getD b.arr []).take b.len

/-- In-place write of `bs` into an array at offset `off`. -/
def writeRange (a : List HByte) (off : Nat) (bs : List HByte) : List HByte :=
  a.take off ++ bs ++ a.drop (off + bs.length)

/-- `slices.Clip` (the Go `buffer.Clip`): drop the spare capacity. -/
def Buf.clip (b : Buf) : Buf := { b with cap := b.len }

/-- Go `append`: write in place into the spare capacity when the bytes fit,
else allocate a grown fresh array and copy. -/
def appendBuf (H : Heap) (b : Buf) (bs : List HByte) : Heap × Buf :=
  if b.len + bs.length ≤ b.cap then
    (H.set b.arr (writeRange (H.getD b.arr []) b.len bs),
     { b with len := b.len + bs.length })
  else
    let newCap := max (b.len + bs.length) (2 * b.cap)
    let newArr := readBuf H b ++ bs ++ List.replicate (newCap - (b.len + bs.length)) 0
    (H ++ [newArr], { arr := H.length, len := b.len + bs.length, cap := newCap })

/-- Append a list of spans (one per `enc.writeAttr` call in `WithAttrs`). -/
def appendSpans (H : Heap) (b : Buf) : List (List HByte) → Heap × Buf
  | [] => (H, b)
  | s :: rest =>
      let hb := appendBuf H b s
      appendSpans hb.1 hb.2 rest

/-- The context handling of `WithAttrs` at the capacity level:
`newCtx := h.context` (a copy of the slice header, sharing the backing array),
append each rendered attr span, then `newCtx.Clip()`. -/
def withAttrsCtx (H : Heap) (ctx : Buf) (spans : List (List HByte)) : Heap × Buf :=
  let hb := appendSpans H ctx spans
  (hb.1, hb.2.clip)

/-- Well-formedness of a slice header over a heap. -/
@[reducible] def wfBuf (H : Heap) (b : Buf) : Prop :=
  b.len ≤ b.cap ∧ b.cap ≤ (H.getD b.arr []).length ∧ b.arr < H.length

/-- Operations interleaved on a family of derived handlers: `derive p spans` is
`WithAttrs` on handler `p` (appending the rendered spans to a copy of its
context and clipping, creating a new handler), `render i extra` is `Handle` on
handler `i` (`middleBuf.copy(&h.context)` reads the context and writes it, plus
the event's own bytes, into a buffer whose backing array is not a context
array — modelled as a fresh allocation). -/
inductive HandlerOp where
  | derive (parent : Nat) (spans : List (List HByte))
  | render (i : Nat) (extra : List HByte)

/-- The contexts of all live handlers plus the backing-array heap. -/
structure SysState where
  heap : Heap
  ctxs : List Buf

/-- One operation on the family of handlers. -/
def stepOp (s : SysState) : HandlerOp → SysState
  | .derive p spans =>
      if hp : p < s.ctxs.length then
        let hb := withAttrsCtx s.heap (s.ctxs.get ⟨p, hp⟩) spans
        { heap := hb.1, ctxs := s.ctxs ++ [hb.2] }
      else s
  | .render i extra =>
      if hi : i < s.ctxs.length then
        { heap := s.heap ++ [readBuf s.heap (s.ctxs.get ⟨i, hi⟩) ++ extra],
          ctxs := s.ctxs }
      else s

/-- Run a sequence of interleaved derivations and renders. -/
def runOps (s : SysState) : List HandlerOp → SysState
  | [] => s
  | op :: rest => runOps (stepOp s op) rest

/-- System invariant: every live context is well formed and clipped (spare
capacity zero), and two contexts sharing a backing array observe the same
length (so neither has writable spare room above the other's bytes). -/
@[reducible] def InvS (s : SysState) : Prop :=
  (∀ c ∈ s.ctxs, wfBuf s.heap c ∧ c.cap = c.len) ∧
  (∀ c ∈ s.ctxs, ∀ c' ∈ s.ctxs, c.arr = c'.arr → c.len = c'.len)

/-- Separation of the buffer being appended to during one `WithAttrs` from the
pre-existing contexts: it either still is exactly the parent's slice header, or
its backing array is a fresh one (allocated at or above the heap length `n`
current when the derivation started). -/
def SepFrom (n : Nat) (p b : Buf) : Prop :=
  (b.arr = p.arr ∧ b.len = p.len ∧ b.cap = p.cap) ∨ n ≤ b.arr

/-! ### Concrete instances used to evaluate the code on specific inputs -/

/-- Options of the `TestHandler_Headers` "missing headers" scenario:
`Headers: ["foo", "bar"]`, color disabled. -/
def optsHdrs : HandlerOptions := { noColor := true, headers := ["foo", "bar"] }

/-- Handler of that scenario. -/
def hHdrs : Handler := newHandler optsHdrs

/-- Record of that scenario: zero time, `INFO`, message `with headers`, attrs
`bar="baz"` and `baz="foo"`. -/
def recHdrs : Record :=
  ⟨0, 0, "with headers", none, [("bar", Value.vstr "baz"), ("baz", Value.vstr "foo")]⟩

/-- A plain handler: default options except color disabled. -/
def hPlain : Handler := newHandler { noColor := true }

/-- A record whose message itself ends in a line-break byte. -/
def recMsgNl : Record := ⟨0, 0, "m\n", none, []⟩

/-- A record none of whose attr keys is a configured header key of `hHdrs`. -/
def recNoHdrMatch : Record := ⟨0, 0, "m", none, [("baz", Value.vstr "x")]⟩

/-- A record whose single attr hits the `bar` header slot of `hHdrs`. -/
def recBarOnly : Record := ⟨0, 0, "m", none, [("bar", Value.vstr "B")]⟩

/-- A one-handler system: heap with one backing array `[7, 7]` fully used by a
clipped context. -/
def sys0 : SysState := ⟨[[7, 7]], [⟨0, 2, 2⟩]⟩

/-- Two sibling derivations from handler 0 (the second one exercising the
in-place append into spare capacity of the freshly grown array) interleaved
with a render of handler 0. -/
def ops0 : List HandlerOp :=
  [HandlerOp.derive 0 [[1], [2]], HandlerOp.render 0 [9], HandlerOp.derive 0 [[3]]]

/-! ## Theorems -/

/-- C5: a level equal to a named anchor renders as the bare 3-letter code; a
level strictly between anchors (or above the highest) renders as the nearest
anchor at or below it plus a signed positive offset; a level below the lowest
anchor renders as `DBG` plus a signed negative offset.  The final conjunct ties
the rendered text to `writeLevel` on the hook-free, color-free configuration. -/
theorem c5_level_anchor_rendering (opts : HandlerOptions) (l : Int)
    (hhook : opts.replaceAttr = none) (hc : opts.noColor = true) :
    (l = 8 → levelText l = "ERR") ∧
    (l = 4 → levelText l = "WRN") ∧
    (l = 0 → levelText l = "INF") ∧
    (l = -4 → levelText l = "DBG") ∧
    (8 < l → levelText l = "ERR" ++ "+" ++ toString (l - 8)) ∧
    (4 < l → l < 8 → levelText l = "WRN" ++ "+" ++ toString (l - 4)) ∧
    (0 < l → l < 4 → levelText l = "INF" ++ "+" ++ toString l) ∧
    (-4 < l → l < 0 → levelText l = "DBG" ++ "+" ++ toString (l + 4)) ∧
    (l < -4 → levelText l = "DBG" ++ toString (l + 4)) ∧
    writeLevel opts l = (levelText l).data ++ [' '] := by
  refine ⟨?_, ?_, ?_, ?_, ?_, ?_, ?_, ?_, ?_, ?_⟩
  · intro h; subst h; rfl
  · intro h; subst h; rfl
  · intro h; subst h; rfl
  · intro h; subst h; rfl
  · intro h
    simp only [levelText, levelAnchor, signedStr]
    rw [if_pos (by omega : (8:Int) ≤ l), if_neg (by omega : ¬(l - 8 = 0)),
      if_pos (by omega : (0:Int) ≤ l - 8)]
    rfl
  · intro h1 h2
    simp only [levelText, levelAnchor, signedStr]
    rw [if_neg (by omega : ¬(8:Int) ≤ l), if_pos (by omega : (4:Int) ≤ l),
      if_neg (by omega : ¬(l - 4 = 0)), if_pos (by omega : (0:Int) ≤ l - 4)]
    rfl
  · intro h1 h2
    simp only [levelText, levelAnchor, signedStr]
    rw [if_neg (by omega : ¬(8:Int) ≤ l), if_neg (by omega : ¬(4:Int) ≤ l),
      if_pos (by omega : (0:Int) ≤ l), if_neg (by omega : ¬(l - 0 = 0)),
      if_pos (by omega : (0:Int) ≤ l - 0)]
    norm_num
    rfl
  · intro h1 h2
    simp only [levelText, levelAnchor, signedStr]
    rw [if_neg (by omega : ¬(8:Int) ≤ l), if_neg (by omega : ¬(4:Int) ≤ l),
      if_neg (by omega : ¬(0:Int) ≤ l), if_neg (by omega : ¬(l - (-4) = 0)),
      if_pos (by omega : (0:Int) ≤ l - (-4))]
    norm_num [Int.sub_neg]
    rfl
  · intro h
    simp only [levelText, levelAnchor, signedStr]
    rw [if_neg (by omega : ¬(8:Int) ≤ l), if_neg (by omega : ¬(4:Int) ≤ l),
      if_neg (by omega : ¬(0:Int) ≤ l), if_neg (by omega : ¬(l - (-4) = 0)),
      if_neg (by omega : ¬(0:Int) ≤ l - (-4))]
    norm_num [Int.sub_neg]
  · simp [writeLevel, hhook, writeColoredString, withColor, hc]

/-- Witness for `c5_level_anchor_rendering` at concrete levels. -/
theorem c5_level_anchor_rendering_witness :
    levelText 0 = "INF" ∧
    levelText 1 = "INF" ++ "+" ++ toString (1 : Int) ∧
    levelText (-5) = "DBG" ++ toString ((-5 : Int) + 4) ∧
    writeLevel { noColor := true } (-5) = (levelText (-5)).data ++ [' '] := by
  have h0 := c5_level_anchor_rendering { noColor := true } 0 rfl rfl
  have h1 := c5_level_anchor_rendering { noColor := true } 1 rfl rfl
  have h5 := c5_level_anchor_rendering { noColor := true } (-5) rfl rfl
  exact ⟨h0.2.2.1 rfl, h1.2.2.2.2.2.2.1 (by norm_num) (by norm_num),
    h5.2.2.2.2.2.2.2.2.1 (by norm_num), h5.2.2.2.2.2.2.2.2.2⟩

/-- C7: an event with the zero timestamp emits no timestamp bytes (hence no
trailing space for the field), the rewrite hook is never invoked for it, and the
rendered header consists of just the remaining header-zone fields. -/
theorem c7_zero_timestamp (opts : HandlerOptions) (h : Handler) (cwd : String)
    (rec : Record) (ht : rec.time = 0) :
    writeTimestamp opts 0 = ([], false) ∧
    (render h cwd rec).header = renderHeaderRest h cwd rec (render h cwd rec).headersUsed := by
  constructor
  · rfl
  · simp [render, ht, writeTimestamp, assembleOut]

/-- Witness for `c7_zero_timestamp` on a concrete zero-time record. -/
theorem c7_zero_timestamp_witness :
    writeTimestamp hPlain.opts 0 = ([], false) ∧
    (render hPlain "" recMsgNl).header =
      renderHeaderRest hPlain "" recMsgNl (render hPlain "" recMsgNl).headersUsed :=
  c7_zero_timestamp hPlain.opts hPlain "" recMsgNl rfl

/-- Helper: `extractHeaders` rewrites the caller's attr slice pointwise,
zeroing exactly the entries whose key is a configured header key. -/
theorem extractHeadersGo_outAttrs (keys : List String) (attrs : List Attr) :
    ∀ st : ExtractState, (extractHeadersGo keys st attrs).outAttrs =
      st.outAttrs ++ attrs.map
        (fun a => if (headerIdx keys a.1).isSome then zeroAttr else a) := by
  induction attrs with
  | nil => intro st; simp [extractHeadersGo]
  | cons a rest ih =>
      intro st
      cases hidx : headerIdx keys a.1 with
      | none => simp [extractHeadersGo, hidx, ih]
      | some idx =>
          simp only [extractHeadersGo, hidx, ih, List.map_cons, Option.isSome_some,
            if_pos, List.append_assoc, List.singleton_append]
          split <;> split <;> simp

/-- C10: `WithAttrs` on a handler overwrites, in the caller-supplied attrs
slice, exactly the entries whose key matches a configured header key with the
zero `slog.Attr{}`, and leaves every non-matching entry unchanged. -/
theorem c10_with_attrs_mutates_caller_slice (h : Handler) (attrs : List Attr) :
    (withAttrs h attrs).attrsAfter = attrs.map
      (fun a => if (headerIdx h.opts.headers a.1).isSome then zeroAttr else a) := by
  simp [withAttrs, extractHeadersGo_outAttrs]

/-- C4 evaluation: under the group key chain `g`, the empty-keyed group around
`k="v"` renders `" g..k=v"` — the children do not inherit the prefix `g`
unchanged (which would give `" g.k=v"`, the rendering of the bare attr) but get
`g.` plus another separator dot.  Only under the empty prefix does the
empty-keyed group render its children identically to the un-grouped attr. -/
theorem c4_empty_key_group_double_dot :
    (writeAttr { noColor := true } 5 [] ("", Value.vgroup [("k", Value.vstr "v")]) "g").1 =
      " g..k=v".data ∧
    (writeAttr { noColor := true } 5 [] ("k", Value.vstr "v") "g").1 = " g.k=v".data ∧
    (writeAttr { noColor := true } 5 [] ("", Value.vgroup [("k", Value.vstr "v")]) "").1 =
      (writeAttr { noColor := true } 5 [] ("k", Value.vstr "v") "").1 := by
  refine ⟨by decide, by decide, by decide⟩

/-- C8: on the handler configured with headers `["foo","bar"]` and the event
`bar="baz"`, `baz="foo"`: the header zone holds exactly the value `baz` (the
`foo` slot is elided), followed by the divider; `bar` is absent from the
trailing attr list and `baz=foo` is rendered in the body. -/
theorem c8_missing_headers_scenario :
    (render hHdrs "" recHdrs).header = "INF baz > ".data ∧
    (render hHdrs "" recHdrs).middle = "with headers baz=foo\n".data ∧
    (render hHdrs "" recHdrs).trailer = [] ∧
    (render hHdrs "" recHdrs).out = "INF baz > with headers baz=foo\n".data := by
  refine ⟨by decide, by decide, by decide, by decide⟩

/-- Helper: `hdrWrite` and the copy step only touch the header-slot fields of
the loop state. -/
theorem hdrWrite_buffers (st : LoopState) (idx : Nat) (a : Attr) :
    (hdrWrite st idx a).middle = st.middle ∧ (hdrWrite st idx a).trailer = st.trailer ∧
    (hdrWrite st idx a).groups = st.groups := by
  simp only [hdrWrite]
  split <;> exact ⟨rfl, rfl, rfl⟩

/-- Helper: the attr loop appends to the middle buffer exactly the non-header
spans free of a line-break byte and to the trailer buffer exactly the spans
containing one, each by whole spans in original order. -/
theorem handleLoop_spans (opts : HandlerOptions) (grp : String) :
    ∀ (attrs : List Attr) (st : LoopState),
      (handleLoop opts grp st attrs).middle =
        st.middle ++
          ((spansOf opts grp st.groups attrs).filter (fun d => !d.contains '\n')).flatten ∧
      (handleLoop opts grp st attrs).trailer =
        st.trailer ++
          ((spansOf opts grp st.groups attrs).filter (fun d => d.contains '\n')).flatten := by
  intro attrs
  induction attrs with
  | nil => intro st; simp [handleLoop, spansOf]
  | cons a rest ih =>
      intro st
      cases hidx : headerIdx opts.headers a.1 with
      | some idx =>
          have hst1 : ∀ st1 : LoopState, st1.middle = st.middle → st1.trailer = st.trailer →
              st1.groups = st.groups →
              (handleLoop opts grp st1 rest).middle =
                st.middle ++
                  ((spansOf opts grp st.groups rest).filter (fun d => !d.contains '\n')).flatten ∧
              (handleLoop opts grp st1 rest).trailer =
                st.trailer ++
                  ((spansOf opts grp st.groups rest).filter (fun d => d.contains '\n')).flatten := by
            intro st1 h1 h2 h3
            have := ih st1
            rw [h1, h2, h3] at this
            exact this
          simp only [handleLoop, spansOf, hidx]
          split
          · exact hst1 _ (hdrWrite_buffers _ idx a).1 (hdrWrite_buffers _ idx a).2.1
              (hdrWrite_buffers _ idx a).2.2
          · exact hst1 _ (hdrWrite_buffers _ idx a).1 (hdrWrite_buffers _ idx a).2.1
              (hdrWrite_buffers _ idx a).2.2
      | none =>
          simp only [handleLoop, spansOf, hidx]
          by_cases hnl : (writeAttr opts a.2.size st.groups a grp).1.contains '\n'
          · rw [if_pos hnl]
            have := ih { st with
              trailer := st.trailer ++ (writeAttr opts a.2.size st.groups a grp).1,
              groups := (writeAttr opts a.2.size st.groups a grp).2 }
            simp only [List.filter_cons, hnl] at this ⊢
            simp only [Bool.not_true, List.flatten, this]
            constructor
            · rfl
            · simp [List.append_assoc]
          · rw [if_neg hnl]
            have := ih { st with
              middle := st.middle ++ (writeAttr opts a.2.size st.groups a grp).1,
              groups := (writeAttr opts a.2.size st.groups a grp).2 }
            rw [Bool.not_eq_true] at hnl
            simp only [List.filter_cons, hnl] at this ⊢
            simp only [Bool.not_false, List.flatten, this]
            constructor
            · simp [List.append_assoc]
            · rfl

/-- C2: in `Handle`, the body buffer ends up as message + persistent-context
bytes followed by exactly the non-header attr spans free of a line-break byte,
in original order, and the trailer buffer is exactly the spans containing a
line-break byte, byte-identically and in original order; the persistent-context
bytes (and the message) are never carved out of the body. -/
theorem c2_multiline_carve_out (h : Handler) (cwd : String) (rec : Record) :
    (render h cwd rec).middlePre =
      (writeMessage h.opts rec.level rec.msg ++ h.context) ++
        ((spansOf h.opts h.groupPfx (if h.opts.replaceAttr.isSome then h.groups else [])
            rec.attrs).filter (fun d => !d.contains '\n')).flatten ∧
    (render h cwd rec).trailerPre =
      ((spansOf h.opts h.groupPfx (if h.opts.replaceAttr.isSome then h.groups else [])
          rec.attrs).filter (fun d => d.contains '\n')).flatten := by
  have hs := handleLoop_spans h.opts h.groupPfx rec.attrs
    { middle := writeMessage h.opts rec.level rec.msg ++ h.context
      trailer := []
      groups := if h.opts.replaceAttr.isSome then h.groups else []
      headers := h.headers
      parent := h.headers
      aliased := true }
  constructor
  · simpa [render, assembleOut] using hs.1
  · simpa [render, assembleOut] using hs.2

/-- C9 counterexample: for the event whose message is `"m\n"`, the rendered
output ends with two line-break bytes, not exactly one. -/
theorem c9_counterexample_two_line_breaks :
    (render hPlain "" recMsgNl).out = "INF m\n\n".data ∧
    (render hPlain "" recMsgNl).out.getLast? = some '\n' ∧
    (render hPlain "" recMsgNl).out.dropLast.getLast? = some '\n' := by
  refine ⟨by decide, by decide, by decide⟩

/-- Helper: section assembly facts about `assembleOut`. -/
theorem assembleOut_spec (hd mp tp : List Char) (hu ph : List Attr) :
    (assembleOut hd mp tp hu ph).out = (hd ++ mp ++ tp) ++ ['\n'] ∧
    (tp = [] → (assembleOut hd mp tp hu ph).middle = mp ++ ['\n'] ∧
      (assembleOut hd mp tp hu ph).trailer = []) ∧
    (tp ≠ [] → (assembleOut hd mp tp hu ph).middle = mp ∧
      (assembleOut hd mp tp hu ph).trailer = tp ++ ['\n']) ∧
    (assembleOut hd mp tp hu ph).out.getLast? = some '\n' ∧
    ((hd ++ mp ++ tp).getLast? ≠ some '\n' →
      (assembleOut hd mp tp hu ph).out.dropLast.getLast? ≠ some '\n') := by
  by_cases hE : tp = []
  · subst hE
    simp [assembleOut]
  · have hE' : tp.isEmpty = false := by simpa [List.isEmpty_iff] using hE
    refine ⟨?_, fun hc => absurd hc hE, fun _ => ⟨by simp [assembleOut, hE'], by simp [assembleOut, hE']⟩, ?_, ?_⟩
    · simp [assembleOut, hE']
    · simp [assembleOut, hE']
    · intro hlast
      simpa [assembleOut, hE'] using hlast

/-- C9 (amended): `Handle` appends exactly one terminator byte — to the body
buffer when the trailer stayed empty, else to the trailer buffer — so the
output always ends in a line-break byte; it ends with exactly one line-break
byte provided the content before the terminator does not itself end with one
(a message or attr value ending in a line break yields a doubled line break,
see the counterexample). -/
theorem c9_terminator_placement (h : Handler) (cwd : String) (rec : Record) :
    (render h cwd rec).out =
      ((render h cwd rec).header ++ (render h cwd rec).middlePre ++
        (render h cwd rec).trailerPre) ++ ['\n'] ∧
    ((render h cwd rec).trailerPre = [] →
      (render h cwd rec).middle = (render h cwd rec).middlePre ++ ['\n'] ∧
      (render h cwd rec).trailer = []) ∧
    ((render h cwd rec).trailerPre ≠ [] →
      (render h cwd rec).middle = (render h cwd rec).middlePre ∧
      (render h cwd rec).trailer = (render h cwd rec).trailerPre ++ ['\n']) ∧
    (render h cwd rec).out.getLast? = some '\n' ∧
    (((render h cwd rec).header ++ (render h cwd rec).middlePre ++
        (render h cwd rec).trailerPre).getLast? ≠ some '\n' →
      (render h cwd rec).out.dropLast.getLast? ≠ some '\n') := by
  simp only [render]
  exact assembleOut_spec _ _ _ _ _

/-- Witness for `c9_terminator_placement` on the concrete headers scenario. -/
theorem c9_terminator_placement_witness :
    ((render hHdrs "" recHdrs).middle = (render hHdrs "" recHdrs).middlePre ++ ['\n'] ∧
      (render hHdrs "" recHdrs).trailer = []) ∧
    (render hHdrs "" recHdrs).out.dropLast.getLast? ≠ some '\n' := by
  have hc := c9_terminator_placement hHdrs "" recHdrs
  exact ⟨hc.2.1 (by decide), hc.2.2.2.2 (by decide)⟩

/-- C6 counterexample: when the very first sink write fails, `Handle` returns
the error but the pooled encoder is not released back to the pool
(`enc.free()` is only reached after all three writes succeed). -/
theorem c6_counterexample_no_release_on_error :
    (handleFlush (render hPlain "" recMsgNl) (fun _ => false)).err = true ∧
    (handleFlush (render hPlain "" recMsgNl) (fun _ => false)).freed = false := by
  exact ⟨by decide, by decide⟩

/-- C6 (amended): the pooled encoder is released exactly on the success path of
`Handle`: `enc.free()` runs iff no sink write failed, i.e. iff all three
section writes succeeded; on a failed write the error is returned to the caller
without releasing the encoder. -/
theorem c6_release_iff_success (r : RenderOut) (sink : Nat → Bool) :
    ((handleFlush r sink).freed = true ↔ (handleFlush r sink).err = false) ∧
    ((handleFlush r sink).err = false ↔ (sink 0 && sink 1 && sink 2) = true) := by
  cases h0 : sink 0 <;> cases h1 : sink 1 <;> cases h2 : sink 2 <;>
    simp [handleFlush, h0, h1, h2]

/-- Helper: `Handle`'s attr loop never writes into the handler's own
`h.headers` backing array — the local slice is copied before every slot
write. -/
theorem handleLoop_parent (opts : HandlerOptions) (grp : String) :
    ∀ (attrs : List Attr) (st : LoopState),
      (handleLoop opts grp st attrs).parent = st.parent := by
  intro attrs
  induction attrs with
  | nil => intro st; simp [handleLoop]
  | cons a rest ih =>
      intro st
      cases hidx : headerIdx opts.headers a.1 with
      | some idx =>
          simp only [handleLoop, hidx]
          split
          · rw [ih]; simp [hdrWrite]
          · next hal =>
              rw [ih]
              simp only [hdrWrite]
              rw [if_neg hal]
      | none =>
          simp only [handleLoop, hidx]
          split <;> rw [ih]

/-- Helper: when no attr of the event matches a configured header key, the
loop leaves the header slots untouched. -/
theorem handleLoop_headers_nomatch (opts : HandlerOptions) (grp : String) :
    ∀ (attrs : List Attr) (st : LoopState),
      (∀ a ∈ attrs, headerIdx opts.headers a.1 = none) →
      (handleLoop opts grp st attrs).headers = st.headers := by
  intro attrs
  induction attrs with
  | nil => intro st _; simp [handleLoop]
  | cons a rest ih =>
      intro st hnm
      have ha := hnm a (List.mem_cons_self a rest)
      simp only [handleLoop, ha]
      split <;> exact ih _ (fun b hb => hnm b (List.mem_cons_of_mem a hb))

/-- Helper: `extractHeaders` never writes into the parent handler's header
array (the slot slice is copied before the first write; `changed` implies the
alias was dropped). -/
theorem extractHeadersGo_parent (keys : List String) :
    ∀ (attrs : List Attr) (st : ExtractState),
      (st.changed = true → st.aliased = false) →
      (extractHeadersGo keys st attrs).parent = st.parent := by
  intro attrs
  induction attrs with
  | nil => intro st _; simp [extractHeadersGo]
  | cons a rest ih =>
      intro st hinv
      cases hidx : headerIdx keys a.1 with
      | some idx =>
          by_cases hch : st.changed = true
          · have hal := hinv hch
            simp only [extractHeadersGo, hidx, hch, hal, Bool.not_true, Bool.false_eq_true,
              if_false]
            rw [ih]
            intro _
            simp [hal]
          · have hch' : st.changed = false := by
              revert hch; cases st.changed <;> simp
            simp only [extractHeadersGo, hidx, hch', Bool.not_false, if_true,
              Bool.false_eq_true, if_false]
            rw [ih]
            intro _
            rfl
      | none =>
          simp only [extractHeadersGo, hidx]
          exact ih _ hinv

/-- Helper: `extractHeaders` with no matching key leaves the slots unchanged. -/
theorem extractHeadersGo_headers_nomatch (keys : List String) :
    ∀ (attrs : List Attr) (st : ExtractState),
      (∀ a ∈ attrs, headerIdx keys a.1 = none) →
      (extractHeadersGo keys st attrs).headers = st.headers := by
  intro attrs
  induction attrs with
  | nil => intro st _; simp [extractHeadersGo]
  | cons a rest ih =>
      intro st hnm
      have ha := hnm a (List.mem_cons_self a rest)
      simp only [extractHeadersGo, ha]
      exact ih _ (fun b hb => hnm b (List.mem_cons_of_mem a hb))

/-- C3: header scoping.  (i) `Handle` never mutates the handler's own header
slots, so a per-event header value is invisible to any later render of the same
handler; (ii) with no per-event override the slots a render uses are exactly
the inherited ones; (iii) a per-event header attr overrides the inherited slot
for that render's output only; (iv) `WithAttrs` leaves the parent's slots
intact while (v) binding the value into the derived handler's slot, where it
(vi) survives `WithGroup` derivation and (vii) `WithAttrs` derivations that
bind no header key — so it is visible in every later render of the derived
handler and its descendants that do not rebind or override it. -/
theorem c3_header_scoping (h : Handler) (cwd : String) (rec rec2 rec3 : Record)
    (a : Attr) (idx : Nat) (g : String) (attrs2 : List Attr) :
    (render h cwd rec).parentHeaders = h.headers ∧
    ((∀ b ∈ rec2.attrs, headerIdx h.opts.headers b.1 = none) →
      (render h cwd rec2).headersUsed = h.headers) ∧
    (headerIdx h.opts.headers a.1 = some idx → rec3.attrs = [a] →
      (render h cwd rec3).headersUsed = h.headers.set idx a) ∧
    (withAttrs h attrs2).parentHeaders = h.headers ∧
    (headerIdx h.opts.headers a.1 = some idx →
      (withAttrs h [a]).handler.headers = h.headers.set idx a) ∧
    (withGroup h g).headers = h.headers ∧
    ((∀ b ∈ attrs2, headerIdx h.opts.headers b.1 = none) →
      (withAttrs h attrs2).handler.headers = h.headers) := by
  refine ⟨?_, ?_, ?_, ?_, ?_, ?_, ?_⟩
  · simp only [render, assembleOut]
    rw [handleLoop_parent]
  · intro hnm
    simp only [render, assembleOut]
    rw [handleLoop_headers_nomatch _ _ _ _ hnm]
  · intro hidx hrec
    simp only [render, assembleOut, hrec, handleLoop, hidx]
    simp [hdrWrite]
  · simp only [withAttrs]
    rw [extractHeadersGo_parent _ _ _ (by intro hc; cases hc)]
  · intro hidx
    simp [withAttrs, extractHeadersGo, hidx]
  · simp [withGroup]
  · intro hnm
    simp only [withAttrs]
    rw [extractHeadersGo_headers_nomatch _ _ _ hnm]

/-- Witness for `c3_header_scoping` on the concrete headers scenario. -/
theorem c3_header_scoping_witness :
    (render hHdrs "" recHdrs).parentHeaders = hHdrs.headers ∧
    (render hHdrs "" recNoHdrMatch).headersUsed = hHdrs.headers ∧
    (render hHdrs "" recBarOnly).headersUsed =
      hHdrs.headers.set 1 ("bar", Value.vstr "B") ∧
    (withAttrs hHdrs [("zap", Value.vstr "2")]).parentHeaders = hHdrs.headers ∧
    (withAttrs hHdrs [("bar", Value.vstr "B")]).handler.headers =
      hHdrs.headers.set 1 ("bar", Value.vstr "B") ∧
    (withGroup hHdrs "grp").headers = hHdrs.headers ∧
    (withAttrs hHdrs [("zap", Value.vstr "2")]).handler.headers = hHdrs.headers := by
  have hc := c3_header_scoping hHdrs "" recHdrs recNoHdrMatch recBarOnly
    ("bar", Value.vstr "B") 1 "grp" [("zap", Value.vstr "2")]
  exact ⟨hc.1, hc.2.1 (by decide), hc.2.2.1 (by decide) rfl, hc.2.2.2.1,
    hc.2.2.2.2.1 (by decide), hc.2.2.2.2.2.1, hc.2.2.2.2.2.2 (by decide)⟩

/-- Helper: reading a just-written heap slot. -/
theorem getD_set_self (H : Heap) (i : Nat) (x : List HByte) (h : i < H.length) :
    (H.set i x).getD i [] = x := by
  simp [List.getD_eq_getElem?_getD, h]

/-- Helper: writing one heap slot leaves the others unchanged. -/
theorem getD_set_ne (H : Heap) (i j : Nat) (x : List HByte) (h : i ≠ j) :
    (H.set i x).getD j [] = H.getD j [] := by
  simp [List.getD_eq_getElem?_getD, List.getElem?_set_ne h]

/-- Helper: allocating a fresh array leaves existing slots unchanged. -/
theorem getD_append_lt (H : Heap) (x : List HByte) (j : Nat) (h : j < H.length) :
    (H ++ [x]).getD j [] = H.getD j [] := by
  simp only [List.getD_eq_getElem?_getD]
  rw [List.getElem?_append]
  simp [h]

/-- Helper: reading the freshly allocated array. -/
theorem getD_append_len (H : Heap) (x : List HByte) :
    (H ++ [x]).getD H.length [] = x := by
  simp [List.getD_eq_getElem?_getD, List.getElem?_concat_length]

/-- Helper: an in-place write inside the array bounds preserves the array's
allocated size. -/
theorem length_writeRange (a : List HByte) (off : Nat) (bs : List HByte)
    (h : off + bs.length ≤ a.length) : (writeRange a off bs).length = a.length := by
  simp [writeRange]
  omega

/-- Helper: an in-place write at offsets `≥ off` does not change the first
`n ≤ off` bytes. -/
theorem take_writeRange_of_le (a : List HByte) (off : Nat) (bs : List HByte) (n : Nat)
    (hn : n ≤ off) (hoff : off ≤ a.length) : (writeRange a off bs).take n = a.take n := by
  rw [writeRange, List.append_assoc, List.take_append_of_le_length (by simp; omega)]
  rw [List.take_take, min_eq_left hn]

/-- Helper: after an in-place write the buffer reads back its old bytes plus
the new ones. -/
theorem take_writeRange_full (a : List HByte) (off : Nat) (bs : List HByte)
    (hoff : off ≤ a.length) :
    (writeRange a off bs).take (off + bs.length) = a.take off ++ bs := by
  rw [writeRange]
  exact List.take_left' (by simp; omega)

/-- Frame and progress facts for one Go `append` during a derivation, with `p`
the (clipped) parent context, `n` the heap size when the derivation started,
and `o` ranging over the contexts alive at that point. -/
theorem appendBuf_spec (n : Nat) (p : Buf) (hp : p.cap = p.len) (H : Heap)
    (hn : n ≤ H.length) (b : Buf) (hb : wfBuf H b) (hsep : SepFrom n p b)
    (bs : List HByte) :
    H.length ≤ (appendBuf H b bs).1.length ∧
    wfBuf (appendBuf H b bs).1 (appendBuf H b bs).2 ∧
    SepFrom n p (appendBuf H b bs).2 ∧
    readBuf (appendBuf H b bs).1 (appendBuf H b bs).2 = readBuf H b ++ bs ∧
    (∀ o : Buf, wfBuf H o → o.arr < n → (o.arr = p.arr → o.len = p.len) →
      readBuf (appendBuf H b bs).1 o = readBuf H o ∧ wfBuf (appendBuf H b bs).1 o) := by
  obtain ⟨hlen, hcap, harr⟩ := hb
  by_cases hfit : b.len + bs.length ≤ b.cap
  · simp only [appendBuf, if_pos hfit]
    have hofflen : b.len ≤ (H.getD b.arr []).length := le_trans hlen hcap
    have hwrlen : (writeRange (H.getD b.arr []) b.len bs).length = (H.getD b.arr []).length :=
      length_writeRange _ _ _ (by omega)
    have hgd : (H.set b.arr (writeRange (H.getD b.arr []) b.len bs)).getD b.arr [] =
        writeRange (H.getD b.arr []) b.len bs := getD_set_self _ _ _ harr
    refine ⟨by simp, ⟨hfit, ?_, by simpa using harr⟩, ?_, ?_, ?_⟩
    · show b.cap ≤ _
      rw [hgd, hwrlen]
      exact hcap
    · rcases hsep with ⟨ha, hl, hc⟩ | hge
      · left
        have hbs : bs.length = 0 := by omega
        exact ⟨ha, by simp [hbs, hl], hc⟩
      · right
        exact hge
    · simp only [readBuf, hgd]
      rw [take_writeRange_full _ _ _ hofflen]
    · intro o ho hon hop
      obtain ⟨holen, hocap, hoarr⟩ := ho
      by_cases hoe : o.arr = b.arr
      · have holeb : o.len ≤ b.len := by
          rcases hsep with ⟨ha, hl, hc⟩ | hge
          · have := hop (by rw [hoe, ha])
            omega
          · omega
        constructor
        · simp only [readBuf, hoe, hgd]
          exact take_writeRange_of_le _ _ _ _ holeb hofflen
        · refine ⟨holen, ?_, by simpa using hoarr⟩
          rw [hoe, hgd, hwrlen, ← hoe]
          exact hocap
      · constructor
        · simp only [readBuf, getD_set_ne _ _ _ _ (fun hh => hoe hh.symm)]
        · refine ⟨holen, ?_, by simpa using hoarr⟩
          rw [getD_set_ne _ _ _ _ (fun hh => hoe hh.symm)]
          exact hocap
  · simp only [appendBuf, if_neg hfit]
    have hreadlen : (readBuf H b).length = b.len := by
      simp only [readBuf, List.length_take]
      omega
    have htl : (List.take b.len (H.getD b.arr [])).length = b.len := by
      simp only [List.length_take]
      omega
    have hNCge : b.len + bs.length ≤ max (b.len + bs.length) (2 * b.cap) := le_max_left _ _
    have hArrLen : (readBuf H b ++ bs ++
        List.replicate (max (b.len + bs.length) (2 * b.cap) - (b.len + bs.length)) 0).length =
        max (b.len + bs.length) (2 * b.cap) := by
      simp [hreadlen]
      omega
    refine ⟨by simp, ⟨hNCge, ?_, by simp⟩, Or.inr (by simpa using hn), ?_, ?_⟩
    · show max (b.len + bs.length) (2 * b.cap) ≤ _
      rw [getD_append_len, hArrLen]
    · simp only [readBuf, getD_append_len]
      exact List.take_left' (by rw [List.length_append, htl])
    · intro o ho hon hop
      obtain ⟨holen, hocap, hoarr⟩ := ho
      constructor
      · simp only [readBuf, getD_append_lt _ _ _ hoarr]
      · refine ⟨holen, ?_, ?_⟩
        · rw [getD_append_lt _ _ _ hoarr]
          exact hocap
        · simp only [List.length_append, List.length_singleton]
          omega

/-- Frame and progress facts for the whole span loop of one `WithAttrs`. -/
theorem appendSpans_spec (n : Nat) (p : Buf) (hp : p.cap = p.len) :
    ∀ (spans : List (List HByte)) (H : Heap) (b : Buf), n ≤ H.length → wfBuf H b →
      SepFrom n p b →
      H.length ≤ (appendSpans H b spans).1.length ∧
      wfBuf (appendSpans H b spans).1 (appendSpans H b spans).2 ∧
      SepFrom n p (appendSpans H b spans).2 ∧
      readBuf (appendSpans H b spans).1 (appendSpans H b spans).2 =
        readBuf H b ++ spans.flatten ∧
      (∀ o : Buf, wfBuf H o → o.arr < n → (o.arr = p.arr → o.len = p.len) →
        readBuf (appendSpans H b spans).1 o = readBuf H o ∧
        wfBuf (appendSpans H b spans).1 o) := by
  intro spans
  induction spans with
  | nil =>
      intro H b hn hb hsep
      refine ⟨le_refl _, hb, hsep, by simp [appendSpans], ?_⟩
      intro o ho _ _
      exact ⟨rfl, ho⟩
  | cons sp rest ih =>
      intro H b hn hb hsep
      obtain ⟨h1, h2, h3, h4, h5⟩ := appendBuf_spec n p hp H hn b hb hsep sp
      obtain ⟨g1, g2, g3, g4, g5⟩ :=
        ih (appendBuf H b sp).1 (appendBuf H b sp).2 (le_trans hn h1) h2 h3
      have hstep : appendSpans H b (sp :: rest) =
          appendSpans (appendBuf H b sp).1 (appendBuf H b sp).2 rest := rfl
      rw [hstep]
      refine ⟨le_trans h1 g1, g2, g3, ?_, ?_⟩
      · rw [g4, h4, List.flatten_cons, List.append_assoc]
      · intro o ho hon hop
        obtain ⟨hr1, hw1⟩ := h5 o ho hon hop
        obtain ⟨hr2, hw2⟩ := g5 o hw1 hon hop
        exact ⟨hr2.trans hr1, hw2⟩

/-- One step of the derivation/render machine preserves the invariant, only
extends the context list, and never changes the bytes any pre-existing context
observes. -/
theorem stepOp_spec (s : SysState) (hInv : InvS s) (op : HandlerOp) :
    InvS (stepOp s op) ∧
    s.heap.length ≤ (stepOp s op).heap.length ∧
    (∃ tail, (stepOp s op).ctxs = s.ctxs ++ tail) ∧
    (∀ c ∈ s.ctxs, readBuf (stepOp s op).heap c = readBuf s.heap c) := by
  obtain ⟨hwf, hpair⟩ := hInv
  cases op with
  | derive p spans =>
      by_cases hp : p < s.ctxs.length
      · simp only [stepOp, dif_pos hp]
        have hpmem : s.ctxs.get ⟨p, hp⟩ ∈ s.ctxs := List.get_mem _ _ hp
        obtain ⟨hpw, hpc⟩ := hwf _ hpmem
        obtain ⟨h1, h2, h3, h4, h5⟩ := appendSpans_spec s.heap.length (s.ctxs.get ⟨p, hp⟩)
          hpc spans s.heap (s.ctxs.get ⟨p, hp⟩) (le_refl _) hpw
          (Or.inl ⟨rfl, rfl, rfl⟩)
        have hcwf : wfBuf (withAttrsCtx s.heap (s.ctxs.get ⟨p, hp⟩) spans).1
            (withAttrsCtx s.heap (s.ctxs.get ⟨p, hp⟩) spans).2 := by
          obtain ⟨ha, hb2, hc⟩ := h2
          exact ⟨le_refl _, le_trans ha hb2, hc⟩
        have hcclip : (withAttrsCtx s.heap (s.ctxs.get ⟨p, hp⟩) spans).2.cap =
            (withAttrsCtx s.heap (s.ctxs.get ⟨p, hp⟩) spans).2.len := rfl
        have hfr : ∀ o ∈ s.ctxs,
            readBuf (withAttrsCtx s.heap (s.ctxs.get ⟨p, hp⟩) spans).1 o = readBuf s.heap o ∧
            wfBuf (withAttrsCtx s.heap (s.ctxs.get ⟨p, hp⟩) spans).1 o := by
          intro o homem
          exact h5 o (hwf o homem).1 (hwf o homem).1.2.2
            (fun hoe => hpair o homem _ hpmem hoe)
        have hsepc : SepFrom s.heap.length (s.ctxs.get ⟨p, hp⟩)
            (withAttrsCtx s.heap (s.ctxs.get ⟨p, hp⟩) spans).2 := by
          rcases h3 with ⟨ha, hl, hc⟩ | hge
          · refine Or.inl ⟨ha, hl, ?_⟩
            show (appendSpans s.heap (s.ctxs.get ⟨p, hp⟩) spans).2.len =
              (s.ctxs.get ⟨p, hp⟩).cap
            rw [hl, hpc]
          · exact Or.inr hge
        refine ⟨⟨?_, ?_⟩, h1, ⟨_, rfl⟩, fun c hc => (hfr c hc).1⟩
        · intro c hc
          rcases List.mem_append.mp hc with hold | hnew
          · exact ⟨(hfr c hold).2, (hwf c hold).2⟩
          · rcases List.mem_singleton.mp hnew with rfl
            exact ⟨hcwf, hcclip⟩
        · intro c hc c' hc'
          rcases List.mem_append.mp hc with hold | hnew <;>
            rcases List.mem_append.mp hc' with hold' | hnew'
          · exact hpair c hold c' hold'
          · rcases List.mem_singleton.mp hnew' with rfl
            intro he
            rcases hsepc with ⟨ha, hl, _⟩ | hge
            · have : c.len = (s.ctxs.get ⟨p, hp⟩).len :=
                hpair c hold _ hpmem (by rw [he]; exact ha)
              rw [this, hl]
            · exact absurd (he ▸ (hwf c hold).1.2.2) (by omega)
          · rcases List.mem_singleton.mp hnew with rfl
            intro he
            rcases hsepc with ⟨ha, hl, _⟩ | hge
            · have : c'.len = (s.ctxs.get ⟨p, hp⟩).len :=
                hpair c' hold' _ hpmem (by rw [← he]; exact ha)
              rw [this, hl]
            · exact absurd (he ▸ (hwf c' hold').1.2.2) (by omega)
          · rcases List.mem_singleton.mp hnew with rfl
            rcases List.mem_singleton.mp hnew' with rfl
            intro _
            rfl
      · simp only [stepOp, dif_neg hp]
        exact ⟨⟨hwf, hpair⟩, le_refl _, ⟨[], (List.append_nil _).symm⟩, fun _ _ => trivial⟩
  | render i extra =>
      by_cases hi : i < s.ctxs.length
      · simp only [stepOp, dif_pos hi]
        refine ⟨⟨?_, hpair⟩, by simp, ⟨[], (List.append_nil _).symm⟩, ?_⟩
        · intro c hc
          obtain ⟨⟨hl, hcp, ha⟩, hclip⟩ := hwf c hc
          refine ⟨⟨hl, ?_, ?_⟩, hclip⟩
          · rw [getD_append_lt _ _ _ ha]
            exact hcp
          · simp only [List.length_append, List.length_singleton]
            omega
        · intro c hc
          obtain ⟨⟨_, _, ha⟩, _⟩ := hwf c hc
          simp only [readBuf, getD_append_lt _ _ _ ha]
      · simp only [stepOp, dif_neg hi]
        exact ⟨⟨hwf, hpair⟩, le_refl _, ⟨[], (List.append_nil _).symm⟩, fun _ _ => trivial⟩

/-- Invariant preservation and the frame property over any operation
sequence. -/
theorem runOps_spec : ∀ (ops : List HandlerOp) (s : SysState), InvS s →
    InvS (runOps s ops) ∧
    (∃ tail, (runOps s ops).ctxs = s.ctxs ++ tail) ∧
    (∀ c ∈ s.ctxs, readBuf (runOps s ops).heap c = readBuf s.heap c) := by
  intro ops
  induction ops with
  | nil =>
      intro s hInv
      exact ⟨hInv, ⟨[], by simp [runOps]⟩, fun c _ => rfl⟩
  | cons op rest ih =>
      intro s hInv
      obtain ⟨hInv', _, ⟨tl, htl⟩, hfr⟩ := stepOp_spec s hInv op
      obtain ⟨gInv, ⟨tl2, htl2⟩, gfr⟩ := ih (stepOp s op) hInv'
      have hstep : runOps s (op :: rest) = runOps (stepOp s op) rest := rfl
      rw [hstep]
      refine ⟨gInv, ⟨tl ++ tl2, by rw [htl2, htl, List.append_assoc]⟩, ?_⟩
      intro c hc
      have hc' : c ∈ (stepOp s op).ctxs := by
        rw [htl]
        exact List.mem_append_left _ hc
      exact (gfr c hc').trans (hfr c hc)

/-- C1: derived-context isolation.  Starting from any family of handlers whose
contexts are well formed and clipped (which `WithAttrs` guarantees by calling
`Clip` on every derived context), any interleaving of further `WithAttrs`
derivations and renders (i) preserves that invariant, (ii) leaves every
pre-existing handler's context slice header untouched, and (iii) never changes
the bytes any pre-existing context observes — so bytes bound by one child never
appear in a sibling's (or the parent's) output.  The final conjunct records
that a derived context is itself clipped and reads back exactly the parent's
bytes followed by the newly bound spans. -/
theorem c1_sibling_context_isolation (s : SysState) (ops : List HandlerOp)
    (hInv : InvS s) :
    InvS (runOps s ops) ∧
    (∀ i, i < s.ctxs.length →
      (runOps s ops).ctxs.getD i ⟨0, 0, 0⟩ = s.ctxs.getD i ⟨0, 0, 0⟩) ∧
    (∀ c ∈ s.ctxs, readBuf (runOps s ops).heap c = readBuf s.heap c) ∧
    (∀ (H : Heap) (ctx : Buf) (spans : List (List HByte)),
      wfBuf H ctx → ctx.cap = ctx.len →
      (withAttrsCtx H ctx spans).2.cap = (withAttrsCtx H ctx spans).2.len ∧
      readBuf (withAttrsCtx H ctx spans).1 (withAttrsCtx H ctx spans).2 =
        readBuf H ctx ++ spans.flatten) := by
  obtain ⟨gInv, ⟨tl, htl⟩, gfr⟩ := runOps_spec ops s hInv
  refine ⟨gInv, ?_, gfr, ?_⟩
  · intro i hi
    rw [htl]
    exact List.getD_append _ _ _ _ hi
  · intro H ctx spans hw hc
    obtain ⟨_, _, _, h4, _⟩ := appendSpans_spec H.length ctx hc spans H ctx
      (le_refl _) hw (Or.inl ⟨rfl, rfl, rfl⟩)
    exact ⟨rfl, h4⟩

/-- Witness for `c1_sibling_context_isolation` on a concrete two-derivation,
one-render interleaving. -/
theorem c1_sibling_context_isolation_witness :
    InvS sys0 ∧
    (runOps sys0 ops0).ctxs.getD 0 ⟨0, 0, 0⟩ = sys0.ctxs.getD 0 ⟨0, 0, 0⟩ ∧
    readBuf (runOps sys0 ops0).heap ⟨0, 2, 2⟩ = readBuf sys0.heap ⟨0, 2, 2⟩ := by
  have h := c1_sibling_context_isolation sys0 ops0 (by decide)
  exact ⟨by decide, h.2.1 0 (by decide), h.2.2.1 ⟨0, 2, 2⟩ (by decide)⟩

end SlogConsole
